import Mathlib

/-!
Installer (selfdrive/ui/installer/installer.cc)

A shallow embedding of the installer's core: the fork-list parser, the fork
selection loop, the git progress parser and the install / finalize sequence.

Strings (std::string) are lists of characters.  Values of type size_t are
natural numbers reduced modulo 2^64 wherever the source does arithmetic on
them; values of type int are integers reduced to the 32 bit two's complement
range wherever the source narrows to int.
-/

namespace Installer

/-! ## std::string -/

/-- The value std::string::npos, the largest size_t. -/
def npos : Nat := 2 ^ 64 - 1

/-- Arithmetic on size_t is arithmetic modulo 2^64. -/
def sizeT (x : Nat) : Nat := x % 2 ^ 64

/-- Scan of std::string::find over the suffix that starts at index i: the first
index at which needle matches, or npos. -/
def findFrom (needle : List Char) : List Char → Nat → Nat
  | [], i => if needle = [] then i else npos
  | c :: cs, i => if needle.isPrefixOf (c :: cs) then i else findFrom needle cs (i + 1)

/-- The call s.find(needle, pos): npos when pos is past the end of s. -/
def find (s needle : List Char) (pos : Nat) : Nat :=
  if s.length < pos then npos else findFrom needle (s.drop pos) pos

/-- The call s.substr(pos, n) for pos <= s.size(), the only case the installer
reaches (the library throws std::out_of_range when pos > s.size()): the
positions parseForkList passes are the result of a find plus one (see
find_quote_succ_le), the position executeGitCommand passes is three before a
position find returned. -/
def substr (s : List Char) (pos n : Nat) : List Char :=
  (s.drop pos).take n

/-! ## Fork list -/

/-- The struct Fork. -/
structure Fork where
  name : List Char
  url : List Char
  deriving DecidableEq, Repr

/-- The entry pushed first by parseForkList and returned by fetchForkList on
an empty response. -/
def defaultFork : Fork :=
  ⟨"openpilot (official)".toList, "https://github.com/commaai/openpilot.git".toList⟩

/-- The conversion at the end of the loop body of parseForkList: an installer
URL (starts with http, no .git anywhere) is replaced by the github URL built
from the fork name. -/
def forkUrl (name url : List Char) : List Char :=
  if find url "http".toList 0 = 0 ∧ find url ".git".toList 0 = npos then
    "https://github.com/".toList ++ name ++ "/openpilot.git".toList
  else
    url

/-- Outcome of one evaluation of the loop condition and body of parseForkList. -/
inductive ParseStep where
  | done : ParseStep
  | more : Fork → Nat → ParseStep
  deriving DecidableEq, Repr

/-- One iteration of the while loop of parseForkList, entered with the value of
pos: done when the loop condition fails or the body breaks, otherwise the fork
pushed and the new value of pos. -/
def parseStep (json : List Char) (pos0 : Nat) : ParseStep :=
  let pos := find json "\"name\":".toList pos0
  if pos = npos then .done else
  let name_start := sizeT (find json "\"".toList (sizeT (pos + 7)) + 1)
  let name_end := find json "\"".toList name_start
  if name_end = npos then .done else
  let name := substr json name_start (sizeT (name_end + 2 ^ 64 - name_start))
  let url_pos := find json "\"url\":".toList name_end
  if url_pos = npos then .done else
  let url_start := sizeT (find json "\"".toList (sizeT (url_pos + 6)) + 1)
  let url_end := find json "\"".toList url_start
  if url_end = npos then .done else
  let url := substr json url_start (sizeT (url_end + 2 ^ 64 - url_start))
  .more ⟨name, forkUrl name url⟩ url_end

/-- The while loop of parseForkList run for at most fuel iterations; none when
the loop has not ended by then. -/
def parseLoop (json : List Char) : Nat → Nat → List Fork → Option (List Fork)
  | 0, _, _ => none
  | fuel + 1, pos, forks =>
    match parseStep json pos with
    | .done => some forks
    | .more fork pos1 => parseLoop json fuel pos1 (forks ++ [fork])

/-- The function parseForkList: the default entry, then the loop from pos = 0. -/
def parseForkList (fuel : Nat) (json : List Char) : Option (List Fork) :=
  parseLoop json fuel 0 [defaultFork]

/-- The function fetchForkList, given the text httpGet returned. -/
def fetchForkList (fuel : Nat) (response : List Char) : Option (List Fork) :=
  if response.isEmpty then some [defaultFork] else parseForkList fuel response

/-! ## The fork list document of the specification -/

/-- The text of one record of the fork list: the name and URL fields in braces. -/
def recordText (r : List Char × List Char) : List Char :=
  "\x7b\"name\":\"".toList ++ r.1 ++ "\",\"url\":\"".toList ++ r.2 ++ "\"\x7d".toList

/-- The document for a list of (name, url) records: the records separated by
a comma and a space, in square brackets. -/
def forkDocument (recs : List (List Char × List Char)) : List Char :=
  "[".toList ++ List.intercalate ", ".toList (recs.map recordText) ++ "]".toList

/-- The text that follows a record in the document when recs are the records
still to come. -/
def restText : List (List Char × List Char) → List Char
  | [] => "]".toList
  | r :: rs => ", ".toList ++ recordText r ++ restText rs

/-- The variant the specification expects for a record: the URL itself when it
ends in .git, otherwise the github URL built from the name. -/
def expectedFork (r : List Char × List Char) : Fork :=
  ⟨r.1, if ".git".toList <:+ r.2 then r.2
        else "https://github.com/".toList ++ r.1 ++ "/openpilot.git".toList⟩

/-- The condition of the specification on a record: no double quote in the
name or the URL, and the URL ends in .git or starts with http and holds no
.git at all. -/
def WellFormedRecord (r : List Char × List Char) : Prop :=
  '"' ∉ r.1 ∧ '"' ∉ r.2 ∧
    (".git".toList <:+ r.2 ∨ ("http".toList <+: r.2 ∧ ¬ ".git".toList <:+: r.2))

instance (r : List Char × List Char) : Decidable (WellFormedRecord r) := by
  unfold WellFormedRecord
  infer_instance

/-- A fork list cut off right after the name field token of its second record. -/
def truncatedAfterName : List Char :=
  "[\x7b\"name\":\"alice\",\"url\":\"https://example.com/alice.git\"\x7d, \x7b\"name\":".toList

/-- A fork list cut off right after the url field token of its second record. -/
def truncatedAfterUrl : List Char :=
  "[\x7b\"name\":\"alice\",\"url\":\"https://example.com/alice.git\"\x7d, \x7b\"name\":\"bob\",\"url\":".toList

/-! ## Processes, display and files -/

/-- What the installer does to the outside world, in program order. -/
inductive Op where
  /-- The call util::sleep_for(ms). -/
  | sleep (ms : Nat)
  /-- The call std::system(cmd) made by run. -/
  | system (cmd : List Char)
  /-- The call popen(cmd, "r") made by executeGitCommand. -/
  | popen (cmd : List Char)
  /-- The progress screen, with the number it draws. -/
  | render (progress : Int)
  /-- The call chdir(path). -/
  | chdir (path : List Char)
  /-- The call fopen(path, "wb"). -/
  | fopen (path : List Char)
  /-- The call fwrite of data to the stream opened on path. -/
  | fwrite (path data : List Char)
  /-- The call fclose of the stream opened on path. -/
  | fclose (path : List Char)
  /-- A std::ofstream opened on path, written with data and closed. -/
  | ofstream (path data : List Char)
  /-- The screen and the 60 s sleep of finishInstall. -/
  | finish
  deriving DecidableEq, Repr

/-- A run of a part of the program: the operations performed, and the value
returned, none when the process was terminated by a failed assert or an
uncaught exception. -/
structure Run (α : Type) where
  trace : List Op
  value : Option α
  deriving DecidableEq, Repr

/-- The operations whose result the source asserts: run asserts that the
command returned 0, cloneFinished asserts chdir, fopen and fwrite.  The result
of fclose is dropped, and a std::ofstream is never tested. -/
def Op.asserted : Op → Bool
  | .system _ => true
  | .chdir _ => true
  | .fopen _ => true
  | .fwrite _ _ => true
  | _ => false

/-- Straight-line code: the operations in order, up to and including the
first asserted one that fails; ok tells which operations succeed. -/
def runOps (ok : Op → Bool) : List Op → Run Unit
  | [] => ⟨[], some ()⟩
  | op :: rest =>
    if op.asserted && !ok op then ⟨[op], none⟩
    else ⟨op :: (runOps ok rest).trace, (runOps ok rest).value⟩

/-- The function renderProgress: the number drawn is std::clamp(progress, 0, 100). -/
def renderProgress (progress : Int) : Op :=
  .render (if progress < 0 then 0 else if 100 < progress then 100 else progress)

/-! ## Numbers -/

/-- The characters std::isspace accepts in the C locale. -/
def isSpace (c : Char) : Bool :=
  c = ' ' || c = '\t' || c = '\n' || c = '\x0b' || c = '\x0c' || c = '\r'

/-- The value of a string of decimal digits. -/
def digitsValue (ds : List Char) : Nat :=
  ds.foldl (fun acc c => 10 * acc + (c.toNat - 48)) 0

/-- The call std::stoi(s): leading white space, an optional sign, then decimal
digits up to the first other character; none when it throws (no digit:
std::invalid_argument, value outside int: std::out_of_range). -/
def stoi (s : List Char) : Option Int :=
  let s1 := s.dropWhile isSpace
  let neg := s1.head? = some '-'
  let s2 := if s1.head? = some '-' ∨ s1.head? = some '+' then s1.drop 1 else s1
  let ds := s2.takeWhile Char.isDigit
  if ds = [] then none
  else
    let v : Int := if neg then -(digitsValue ds : Int) else (digitsValue ds : Int)
    if v < -(2 ^ 31) ∨ 2 ^ 31 ≤ v then none else some v

/-- Floor of the binary logarithm of n, for n > 0. -/
def log2Fuel : Nat → Nat → Nat
  | 0, _ => 0
  | fuel + 1, n => if n < 2 then 0 else log2Fuel fuel (n / 2) + 1

/-- The fraction n / d times 2^s. -/
def scalePow (n d : Nat) (s : Int) : Nat × Nat :=
  if 0 ≤ s then (n * 2 ^ s.toNat, d) else (n, d * 2 ^ (-s).toNat)

/-- The double nearest to the positive fraction n / d (IEEE 754 binary64, round
to nearest, ties to even, normal range), as a fraction: the fraction is scaled
by a power of two into [2^52, 2^53), rounded to an integer and scaled back. -/
def roundDouble (n d : Nat) : Nat × Nat :=
  if n = 0 then (0, 1) else
  let s0 : Int := 52 + (log2Fuel d d : Int) - (log2Fuel n n : Int)
  let s : Int := if (scalePow n d s0).1 < 2 ^ 52 * (scalePow n d s0).2 then s0 + 1 else s0
  let q := (scalePow n d s).1 / (scalePow n d s).2
  let r := (scalePow n d s).1 % (scalePow n d s).2
  let m := if 2 * r < (scalePow n d s).2 then q
           else if (scalePow n d s).2 < 2 * r then q + 1
           else if q % 2 = 0 then q else q + 1
  scalePow m 1 (-s)

/-- The expression int(percent / 100. * weight): the two int operands are
exact as doubles, the quotient and the product are each rounded to a double,
and the conversion to int drops the fraction. -/
def scaledPercent (percent weight : Int) : Int :=
  let a := roundDouble percent.natAbs 100
  let b := roundDouble (a.1 * weight.natAbs) a.2
  let t : Int := ((b.1 / b.2 : Nat) : Int)
  if (percent < 0) = (weight < 0) then t else -t

/-! ## Progress of the git command -/

/-- The table stages of executeGitCommand: prefix, weight in percentage. -/
def stages : List (List Char × Int) :=
  [("Receiving objects: ".toList, 91), ("Resolving deltas: ".toList, 2),
   ("Updating files: ".toList, 7)]

/-- What one line read from the pipe leads to. -/
inductive LineResult where
  /-- No call of renderProgress. -/
  | silent : LineResult
  /-- The call renderProgress(progress). -/
  | report (progress : Int) : LineResult
  /-- The exception std::stoi throws leaves executeGitCommand. -/
  | throws : LineResult
  deriving DecidableEq, Repr

/-- The for loop over the stages for one line, entered with the stages still to
try and the value of base. -/
def scanStages (line : List Char) : List (List Char × Int) → Int → LineResult
  | [], _ => .silent
  | (text, weight) :: rest, base =>
    if find line text 0 ≠ npos then
      let percentPos := find line "%".toList 0
      if percentPos ≠ npos ∧ 3 ≤ percentPos then
        match stoi (substr line (percentPos - 3) 3) with
        | none => .throws
        | some percent => .report (base + scaledPercent percent weight)
      else .silent
    else scanStages line rest (base + weight)

/-- The body of the while loop of executeGitCommand for one line. -/
def processLine (line : List Char) : LineResult :=
  scanStages line stages 0

/-- The while loop of executeGitCommand over the lines fgets delivers: the
calls of renderProgress, and whether the loop reached the end of the stream. -/
def readLines : List (List Char) → Run Unit
  | [] => ⟨[], some ()⟩
  | line :: rest =>
    match processLine line with
    | .silent => readLines rest
    | .report progress =>
      ⟨renderProgress progress :: (readLines rest).trace, (readLines rest).value⟩
    | .throws => ⟨[], none⟩

/-- The function executeGitCommand.  The process behind the pipe is given by
what popen and the pipe deliver: none when popen fails, otherwise the lines
read by fgets and the value of pclose. -/
def executeGitCommand (cmd : List Char) (proc : Option (List (List Char) × Int)) : Run Int :=
  match proc with
  | none => ⟨[.popen cmd], some (-1)⟩
  | some (lines, status) =>
    ⟨.popen cmd :: (readLines lines).trace, (readLines lines).value.map (fun _ => status)⟩

/-- The value of base when the loop reaches stage i: the weights before it. -/
def stageBase (i : Nat) : Int :=
  ((stages.take i).map Prod.snd).sum

/-- The decimal digits of p right-aligned in a field of three characters, the
way git prints the percentage of a progress line. -/
def pad3 (p : Nat) : List Char :=
  List.replicate (3 - (Nat.toDigits 10 p).length) ' ' ++ Nat.toDigits 10 p

/-! ## Install -/

/-- The constant INSTALL_PATH. -/
def INSTALL_PATH : List Char := "/data/openpilot".toList
/-- The constant VALID_CACHE_PATH. -/
def VALID_CACHE_PATH : List Char := "/data/.openpilot_cache".toList
/-- The constant TMP_INSTALL_PATH. -/
def TMP_INSTALL_PATH : List Char := "/data/tmppilot".toList
/-- The constant CONTINUE_PATH. -/
def CONTINUE_PATH : List Char := "/data/continue.sh".toList
/-- The constant GIT_SSH_URL. -/
def GIT_SSH_URL : List Char := "git@github.com:commaai/openpilot.git".toList

/-- What is at a path: a directory, or a file with the bytes it holds, its
executable bit, and the bytes that fwrite has put into the buffer of the stdio
stream open on it and that no flush has written to the file yet. -/
inductive Node where
  | dir : Node
  | file (content : List Char) (executable : Bool) (buffered : List Char) : Node
  deriving DecidableEq, Repr

/-- The file system: what is at each path, if anything. -/
abbrev FileSys := List Char → Option Node

/-- The part of path p below dir, when p is dir or lies under it. -/
def below (dir p : List Char) : Option (List Char) :=
  if p = dir then some []
  else if (dir ++ ['/']).isPrefixOf p then some (p.drop dir.length)
  else none

/-- The rest of s after the start pre, when s starts with pre. -/
def afterStart (pre s : List Char) : Option (List Char) :=
  if pre.isPrefixOf s then some (s.drop pre.length) else none

/-- Model of the shell commands the installer passes to std::system, on the
paths it names: rm -rf removes a tree, rm -f a file, mv renames a tree,
chmod +x sets the executable bit.  The git commands (and cp, mkdir) work
inside the checkout and parameter directories; what they change there is not
modelled. -/
def systemEffect (cmd : List Char) (fs : FileSys) : FileSys :=
  match afterStart "rm -rf ".toList cmd with
  | some d => fun p => if (below d p).isSome then none else fs p
  | none =>
  match afterStart "rm -f ".toList cmd with
  | some f => fun p => if p = f then none else fs p
  | none =>
  match afterStart "mv ".toList cmd with
  | some args =>
    let src := args.takeWhile (fun c => c ≠ ' ')
    let dst := (args.dropWhile (fun c => c ≠ ' ')).drop 1
    fun p =>
      match below dst p with
      | some rest => fs (src ++ rest)
      | none => if (below src p).isSome then none else fs p
  | none =>
  match afterStart "chmod +x ".toList cmd with
  | some f => fun p =>
      if p = f then
        match fs p with
        | some (.file content _ buffered) => some (.file content true buffered)
        | other => other
      else fs p
  | none => fs

/-- The file system after an operation; ok tells which operations succeed.
A command has the effect of systemEffect.  The call fopen with mode "wb"
creates or empties the file.  The call fwrite only puts the bytes into the
buffer of the stream (the hand-off script is shorter than that buffer), and
the call fclose flushes the buffer: the bytes reach the file when the flush
succeeds and are lost when it fails, and the stream is gone either way.  A
std::ofstream that fails leaves its file empty. -/
def applyOp (ok : Op → Bool) (fs : FileSys) : Op → FileSys
  | .system cmd => systemEffect cmd fs
  | .fopen path => fun p =>
      if p = path then
        match fs p with
        | some (.file _ executable _) => some (.file [] executable [])
        | _ => some (.file [] false [])
      else fs p
  | .fwrite path data => fun p =>
      if p = path then
        match fs p with
        | some (.file content executable buffered) =>
          some (.file content executable (buffered ++ data))
        | other => other
      else fs p
  | .fclose path => fun p =>
      if p = path then
        match fs p with
        | some (.file content executable buffered) =>
          if ok (.fclose path) then some (.file (content ++ buffered) executable [])
          else some (.file content executable [])
        | other => other
      else fs p
  | .ofstream path data => fun p =>
      if p = path then
        match fs p with
        | some (.file _ executable _) =>
          some (.file (if ok (.ofstream path data) then data else []) executable [])
        | _ => some (.file (if ok (.ofstream path data) then data else []) false [])
      else fs p
  | _ => fs

/-- The file system after a sequence of operations. -/
def applyOps (ok : Op → Bool) (fs : FileSys) (ops : List Op) : FileSys :=
  ops.foldl (applyOp ok) fs

/-- The part of cloneFinished compiled under INTERNAL: the parameter files, in
the key order of the std::map, and the remote of the installed checkout. -/
def internalOps : List Op :=
  [.system "mkdir -p /data/params/d/".toList,
   .ofstream "/data/params/d/GithubSshKeys".toList
     "ssh-ed25519 AAAAC3NzaC1lZDI1NTE5AAAAIMX2kU8eBZyEWmbq0tjMPxksWWVuIV/5l64GabcYbdpI".toList,
   .ofstream "/data/params/d/RecordFrontLock".toList "1".toList,
   .ofstream "/data/params/d/SshEnabled".toList "1".toList,
   .system ("cd ".toList ++ INSTALL_PATH ++ " && ".toList
     ++ "git remote set-url origin --push ".toList ++ GIT_SSH_URL ++ " && ".toList
     ++ "git config --replace-all remote.origin.fetch \"+refs/heads/*:refs/remotes/origin/*\"".toList)]

/-- The operations of cloneFinished after the assert on the exit code, in
program order; str_continue is the embedded continue.sh. -/
def cloneFinishedOps (internal : Bool) (BRANCH_STR str_continue : List Char) : List Op :=
  [renderProgress 100,
   .chdir TMP_INSTALL_PATH,
   .system ("git checkout ".toList ++ BRANCH_STR),
   .system ("git reset --hard origin/".toList ++ BRANCH_STR),
   .system "git submodule update --init".toList,
   .system ("rm -f ".toList ++ VALID_CACHE_PATH),
   .system ("rm -rf ".toList ++ INSTALL_PATH),
   .system ("mv ".toList ++ TMP_INSTALL_PATH ++ " ".toList ++ INSTALL_PATH)]
  ++ (if internal then internalOps else [])
  ++ [.fopen "/data/continue.sh.new".toList,
      .fwrite "/data/continue.sh.new".toList str_continue,
      .fclose "/data/continue.sh.new".toList,
      .system "chmod +x /data/continue.sh.new".toList,
      .system ("mv /data/continue.sh.new ".toList ++ CONTINUE_PATH),
      .finish]

/-- The function cloneFinished: the assert on the exit code, then the
operations, each asserted command ending the run when it fails. -/
def cloneFinished (ok : Op → Bool) (internal : Bool) (BRANCH_STR str_continue : List Char)
    (exitCode : Int) : Run Unit :=
  if exitCode = 0 then runOps ok (cloneFinishedOps internal BRANCH_STR str_continue)
  else ⟨[], none⟩

/-! ## Fork selection -/

/-- What raylib answers during one pass of the loop of showForkSelection:
WindowShouldClose() and IsKeyPressed for the four keys. -/
structure Frame where
  windowShouldClose : Bool
  up : Bool
  down : Bool
  enter : Bool
  escape : Bool
  deriving DecidableEq, Repr

/-- Conversion to int: the value modulo 2^32 in the range of a 32 bit int. -/
def toInt (x : Int) : Int := (x + 2 ^ 31) % 2 ^ 32 - 2 ^ 31

/-- Conversion of an int to size_t: the value modulo 2^64. -/
def intToSizeT (x : Int) : Nat := (x % 2 ^ 64).toNat

/-- The statement selected = (selected - 1 + forks.size()) % forks.size():
the int selected - 1 is converted to size_t, the sum and the remainder are
taken in size_t, and the result is converted back to int. -/
def keyUp (selected : Int) (size : Nat) : Int :=
  toInt ((sizeT (intToSizeT (toInt (selected - 1)) + size) % size : Nat) : Int)

/-- The statement selected = (selected + 1) % forks.size(). -/
def keyDown (selected : Int) (size : Nat) : Int :=
  toInt ((intToSizeT (toInt (selected + 1)) % size : Nat) : Int)

/-- The while loop of showForkSelection over the frames still to come, with
the value of selected: the value returned and the frames not read, none when
the frames end before the loop does. -/
def selectionLoop (size : Nat) : Int → List Frame → Option (Int × List Frame)
  | _, [] => none
  | selected, f :: rest =>
    if f.windowShouldClose then some (0, rest)
    else
      let s1 := if f.up then keyUp selected size else selected
      let s2 := if f.down then keyDown s1 size else s1
      if f.enter then some (s2, rest)
      else if f.escape then some (0, rest)
      else selectionLoop size s2 rest

/-- The function showForkSelection. -/
def showForkSelection (forks : List Fork) (frames : List Frame) : Option (Int × List Frame) :=
  if forks.length ≤ 1 then some (0, frames) else selectionLoop forks.length 0 frames

/-- The four logical inputs of the SelectionController of the specification. -/
inductive SelectionEvent where
  | moveUp | moveDown | confirm | cancel
  deriving DecidableEq, Repr

/-- The SelectionController of the specification, written from its words, for a
list of n variants and the highlighted index h: move-up gives (h - 1 + n) mod n,
move-down (h + 1) mod n, confirm returns h, cancel returns 0; a frame without
input changes nothing. -/
def selectionController (n : Nat) : Int → List (Option SelectionEvent) →
    Option (Int × List (Option SelectionEvent))
  | _, [] => none
  | h, none :: rest => selectionController n h rest
  | h, some .moveUp :: rest => selectionController n ((h - 1 + n) % n) rest
  | h, some .moveDown :: rest => selectionController n ((h + 1) % n) rest
  | h, some .confirm :: rest => some (h, rest)
  | _, some .cancel :: rest => some (0, rest)

/-- The contract select of the specification: 0 at once for at most one
variant, otherwise the controller from index 0. -/
def selectSpec (n : Nat) (events : List (Option SelectionEvent)) :
    Option (Int × List (Option SelectionEvent)) :=
  if n ≤ 1 then some (0, events) else selectionController n 0 events

/-- The logical input of a frame: a request to close the window (raylib's exit
key is the escape key) counts as cancel. -/
def frameEvent (f : Frame) : Option SelectionEvent :=
  if f.windowShouldClose then some .cancel
  else if f.up then some .moveUp
  else if f.down then some .moveDown
  else if f.enter then some .confirm
  else if f.escape then some .cancel
  else none

/-- At most one of the four keys is pressed in the frame. -/
def atMostOneKey (f : Frame) : Bool :=
  (if f.up then 1 else 0) + (if f.down then 1 else 0) + (if f.enter then 1 else 0)
    + (if f.escape then 1 else 0) ≤ 1

/-- An environment in which every operation succeeds except the flush that
fclose does on the staging file of the hand-off script. -/
def flushFails (op : Op) : Bool :=
  decide (op ≠ .fclose "/data/continue.sh.new".toList)

end Installer

/-! # Proofs -/

namespace Installer

/-! ## Facts about find -/

theorem findFrom_hit (needle t : List Char) (i : Nat) (h : needle <+: t) :
    findFrom needle t i = i := by
  cases t with
  | nil =>
    have : needle = [] := List.prefix_nil.mp h
    simp [findFrom, this]
  | cons c cs =>
    have : needle.isPrefixOf (c :: cs) = true := List.isPrefixOf_iff_prefix.mpr h
    simp [findFrom, this]

theorem findFrom_skip_char (c : Char) (rest a t : List Char) (i : Nat) (h : c ∉ a) :
    findFrom (c :: rest) (a ++ t) i = findFrom (c :: rest) t (i + a.length) := by
  induction a generalizing i with
  | nil => simp
  | cons x xs ih =>
    have hx : c ≠ x := fun e => h (by simp [e])
    have hxs : c ∉ xs := fun e => h (by simp [e])
    have : (c :: rest).isPrefixOf (x :: (xs ++ t)) = false := by
      simp [List.isPrefixOf, hx]
    rw [List.cons_append, findFrom, this, ih (i + 1) hxs]
    simp only [Bool.false_eq_true, if_false, List.length_cons]
    congr 1
    omega

theorem findFrom_not_infix (needle s : List Char) (i : Nat) (h : ¬ needle <:+: s) :
    findFrom needle s i = npos := by
  induction s generalizing i with
  | nil =>
    have : needle ≠ [] := fun e => h (by simp [e])
    simp [findFrom, this]
  | cons c cs ih =>
    have h1 : needle.isPrefixOf (c :: cs) = false := by
      cases hp : needle.isPrefixOf (c :: cs) with
      | false => rfl
      | true => exact absurd (List.isPrefixOf_iff_prefix.mp hp).isInfix h
    have h2 : ¬ needle <:+: cs := fun e => h (List.infix_cons e)
    simp [findFrom, h1, ih (i + 1) h2]

theorem find_not_infix (needle s : List Char) (pos : Nat) (h : ¬ needle <:+: s) :
    find s needle pos = npos := by
  unfold find
  split
  · rfl
  · exact findFrom_not_infix needle _ pos
      (fun e => h (e.trans (List.drop_suffix pos s).isInfix))

theorem findFrom_infix (needle s : List Char) (i : Nat) (h : needle <:+: s) :
    ∃ k, findFrom needle s i = i + k ∧ k + needle.length ≤ s.length := by
  induction s generalizing i with
  | nil =>
    have : needle = [] := List.infix_nil.mp h
    exact ⟨0, by simp [findFrom, this], by simp [this]⟩
  | cons c cs ih =>
    cases hp : needle.isPrefixOf (c :: cs) with
    | true =>
      exact ⟨0, by simp [findFrom, hp], by
        simpa using (List.isPrefixOf_iff_prefix.mp hp).length_le⟩
    | false =>
      have h2 : needle <:+: cs := by
        rcases List.infix_cons_iff.mp h with h3 | h3
        · rw [← List.isPrefixOf_iff_prefix, hp] at h3
          exact absurd h3 (by simp)
        · exact h3
      obtain ⟨k, hk, hl⟩ := ih (i + 1) h2
      refine ⟨k + 1, ?_, by simp; omega⟩
      simp only [findFrom, hp, Bool.false_eq_true, if_false, hk]
      omega

/-- At a position that holds the end of a prefix of s, find scans the rest. -/
theorem find_at_append (a t needle : List Char) :
    find (a ++ t) needle a.length = findFrom needle t a.length := by
  simp [find]



theorem findFrom_bound (needle s : List Char) :
    ∀ i, findFrom needle s i = npos ∨ findFrom needle s i + needle.length ≤ i + s.length := by
  induction s with
  | nil =>
    intro i
    unfold findFrom
    split
    · rename_i h; right; simp [h]
    · left; rfl
  | cons c cs ih =>
    intro i
    unfold findFrom
    split
    · rename_i h
      right
      have := (List.isPrefixOf_iff_prefix.mp h).length_le
      omega
    · rcases ih (i + 1) with h | h
      · exact Or.inl h
      · right
        simp only [List.length_cons]
        omega

/-- The two positions parseForkList passes to substr (the result of a find for
the quote, plus one) lie within the string, so substr does not throw there. -/
theorem find_quote_succ_le (json : List Char) (p : Nat) (hlen : json.length < 2 ^ 64) :
    sizeT (find json "\"".toList p + 1) ≤ json.length := by
  unfold find
  split
  · simp [sizeT, npos]
  · rename_i hp
    rcases findFrom_bound "\"".toList (json.drop p) p with h | h
    · rw [h]; simp [sizeT, npos]
    · have h1 : "\"".toList.length = 1 := rfl
      have h2 : (json.drop p).length = json.length - p := List.length_drop p json
      rw [h1, h2] at h
      unfold sizeT
      omega

theorem find_at (s a t needle : List Char) (p : Nat) (hs : s = a ++ t) (hp : p = a.length) :
    find s needle p = findFrom needle t p := by
  subst hs hp
  exact find_at_append a t needle

theorem substr_at (s a m t : List Char) (p k : Nat) (hs : s = a ++ (m ++ t))
    (hp : p = a.length) (hk : k = m.length) : substr s p k = m := by
  subst hs hp hk
  simp [substr]

theorem nameTok_eq : "\"name\":".toList = ['"', 'n', 'a', 'm', 'e', '"', ':'] := rfl
theorem urlTok_eq : "\"url\":".toList = ['"', 'u', 'r', 'l', '"', ':'] := rfl
theorem quoteTok_eq : "\"".toList = ['"'] := rfl

/-- One loop iteration over a complete record: the record's fork is pushed and
pos moves to the closing quote of the URL. -/
theorem parseStep_record (pre n u rest : List Char) (pos0 : Nat)
    (hn : '"' ∉ n) (hu : '"' ∉ u)
    (hlen : (pre ++ ('\x7b' :: '"' :: 'n' :: 'a' :: 'm' :: 'e' :: '"' :: ':' :: '"' :: (n ++
      ('"' :: ',' :: '"' :: 'u' :: 'r' :: 'l' :: '"' :: ':' :: '"' :: (u ++ '"' :: rest))))).length
        < 2 ^ 64)
    (hfind : find (pre ++ ('\x7b' :: '"' :: 'n' :: 'a' :: 'm' :: 'e' :: '"' :: ':' :: '"' :: (n ++
      ('"' :: ',' :: '"' :: 'u' :: 'r' :: 'l' :: '"' :: ':' :: '"' :: (u ++ '"' :: rest)))))
        "\"name\":".toList pos0 = pre.length + 1) :
    parseStep (pre ++ ('\x7b' :: '"' :: 'n' :: 'a' :: 'm' :: 'e' :: '"' :: ':' :: '"' :: (n ++
      ('"' :: ',' :: '"' :: 'u' :: 'r' :: 'l' :: '"' :: ':' :: '"' :: (u ++ '"' :: rest))))) pos0
      = .more ⟨n, forkUrl n u⟩ (pre.length + 18 + n.length + u.length) := by
  generalize hD : (pre ++ ('\x7b' :: '"' :: 'n' :: 'a' :: 'm' :: 'e' :: '"' :: ':' :: '"' :: (n ++
      ('"' :: ',' :: '"' :: 'u' :: 'r' :: 'l' :: '"' :: ':' :: '"' :: (u ++ '"' :: rest))))) = D
    at hlen hfind ⊢
  have hL : D.length = pre.length + 19 + n.length + u.length + rest.length := by
    subst hD; simp; omega
  have e64 : (2 : Nat) ^ 64 = 18446744073709551616 := by norm_num
  rw [e64] at hlen
  -- the opening quote of the name
  have h1 : find D ['"'] (pre.length + 8) = pre.length + 8 := by
    rw [find_at D (pre ++ ['\x7b', '"', 'n', 'a', 'm', 'e', '"', ':'])
      ('"' :: (n ++ ('"' :: ',' :: '"' :: 'u' :: 'r' :: 'l' :: '"' :: ':' :: '"' :: (u ++ '"' :: rest))))
      _ _ (by subst hD; simp) (by simp)]
    exact findFrom_hit _ _ _ ⟨_, rfl⟩
  -- the closing quote of the name
  have h2 : find D ['"'] (pre.length + 9) = pre.length + 9 + n.length := by
    rw [find_at D (pre ++ ['\x7b', '"', 'n', 'a', 'm', 'e', '"', ':', '"'])
      (n ++ ('"' :: ',' :: '"' :: 'u' :: 'r' :: 'l' :: '"' :: ':' :: '"' :: (u ++ '"' :: rest)))
      _ _ (by subst hD; simp) (by simp)]
    rw [findFrom_skip_char _ _ _ _ _ hn]
    exact findFrom_hit _ _ _ ⟨_, rfl⟩
  have h3 : substr D (pre.length + 9) n.length = n :=
    substr_at D (pre ++ ['\x7b', '"', 'n', 'a', 'm', 'e', '"', ':', '"']) n
      ('"' :: ',' :: '"' :: 'u' :: 'r' :: 'l' :: '"' :: ':' :: '"' :: (u ++ '"' :: rest))
      _ _ (by subst hD; simp) (by simp) rfl
  -- the url token
  have h4 : find D ['"', 'u', 'r', 'l', '"', ':'] (pre.length + 9 + n.length)
      = pre.length + 11 + n.length := by
    rw [find_at D (pre ++ ['\x7b', '"', 'n', 'a', 'm', 'e', '"', ':', '"'] ++ n)
      ('"' :: ',' :: '"' :: 'u' :: 'r' :: 'l' :: '"' :: ':' :: '"' :: (u ++ '"' :: rest))
      _ _ (by subst hD; simp) (by simp; omega)]
    simp [findFrom, List.isPrefixOf]
    omega
  have h5 : find D ['"'] (pre.length + 17 + n.length) = pre.length + 17 + n.length := by
    rw [find_at D (pre ++ ['\x7b', '"', 'n', 'a', 'm', 'e', '"', ':', '"'] ++ n
        ++ ['"', ',', '"', 'u', 'r', 'l', '"', ':'])
      ('"' :: (u ++ '"' :: rest))
      _ _ (by subst hD; simp) (by simp; omega)]
    exact findFrom_hit _ _ _ ⟨_, rfl⟩
  have h6 : find D ['"'] (pre.length + 18 + n.length)
      = pre.length + 18 + n.length + u.length := by
    rw [find_at D (pre ++ ['\x7b', '"', 'n', 'a', 'm', 'e', '"', ':', '"'] ++ n
        ++ ['"', ',', '"', 'u', 'r', 'l', '"', ':', '"'])
      (u ++ '"' :: rest)
      _ _ (by subst hD; simp) (by simp; omega)]
    rw [findFrom_skip_char _ _ _ _ _ hu]
    exact findFrom_hit _ _ _ ⟨_, rfl⟩
  have h7 : substr D (pre.length + 18 + n.length) u.length = u :=
    substr_at D (pre ++ ['\x7b', '"', 'n', 'a', 'm', 'e', '"', ':', '"'] ++ n
        ++ ['"', ',', '"', 'u', 'r', 'l', '"', ':', '"']) u ('"' :: rest)
      _ _ (by subst hD; simp) (by simp; omega) rfl
  have a1 : sizeT (pre.length + 1 + 7) = pre.length + 8 := by
    unfold sizeT; omega
  have a2 : sizeT (pre.length + 8 + 1) = pre.length + 9 := by
    unfold sizeT; omega
  have a3 : sizeT (pre.length + 9 + n.length + 2 ^ 64 - (pre.length + 9)) = n.length := by
    unfold sizeT; omega
  have a4 : sizeT (pre.length + 11 + n.length + 6) = pre.length + 17 + n.length := by
    unfold sizeT; omega
  have a5 : sizeT (pre.length + 17 + n.length + 1) = pre.length + 18 + n.length := by
    unfold sizeT; omega
  have a6 : sizeT (pre.length + 18 + n.length + u.length + 2 ^ 64 - (pre.length + 18 + n.length))
      = u.length := by
    unfold sizeT; omega
  have n1 : pre.length + 1 ≠ npos := by unfold npos; omega
  have n2 : pre.length + 9 + n.length ≠ npos := by unfold npos; omega
  have n3 : pre.length + 11 + n.length ≠ npos := by unfold npos; omega
  have n4 : pre.length + 18 + n.length + u.length ≠ npos := by unfold npos; omega
  unfold parseStep
  simp only [hfind, quoteTok_eq, urlTok_eq, a1, h1, a2, h2, a3, h3, h4, a4, h5, a5, h6, a6, h7,
    n1, n2, n3, n4, if_false]

theorem intercalate_records (r : List Char × List Char) (rs : List (List Char × List Char)) :
    List.intercalate ", ".toList ((r :: rs).map recordText) ++ "]".toList
      = recordText r ++ restText rs := by
  induction rs generalizing r with
  | nil => simp [List.intercalate, restText]
  | cons r1 rs ih =>
    have := ih r1
    simp only [List.intercalate, List.map_cons, List.intersperse_cons₂, List.flatten_cons,
      List.append_assoc, restText] at this ⊢
    rw [this]

theorem forkDocument_cons (r : List Char × List Char) (rs : List (List Char × List Char)) :
    forkDocument (r :: rs) = '[' :: (recordText r ++ restText rs) := by
  unfold forkDocument
  rw [List.append_assoc, intercalate_records]
  rfl

theorem recordText_eq (r : List Char × List Char) (t : List Char) :
    recordText r ++ t = '\x7b' :: '"' :: 'n' :: 'a' :: 'm' :: 'e' :: '"' :: ':' :: '"' :: (r.1 ++
      ('"' :: ',' :: '"' :: 'u' :: 'r' :: 'l' :: '"' :: ':' :: '"' :: (r.2 ++ '"' :: '\x7d' :: t))) := by
  have e1 : "\x7b\"name\":\"".toList = ['\x7b', '"', 'n', 'a', 'm', 'e', '"', ':', '"'] := rfl
  have e2 : "\",\"url\":\"".toList = ['"', ',', '"', 'u', 'r', 'l', '"', ':', '"'] := rfl
  have e3 : "\"\x7d".toList = ['"', '\x7d'] := rfl
  simp [recordText, e1, e2, e3]

theorem find_zero (s needle : List Char) : find s needle 0 = findFrom needle s 0 := by
  simp [find]

theorem forkUrl_wellFormed (r : List Char × List Char) (h : WellFormedRecord r)
    (hlen : r.2.length < 2 ^ 64) : forkUrl r.1 r.2 = (expectedFork r).url := by
  obtain ⟨_, _, h3⟩ := h
  unfold forkUrl expectedFork
  rcases h3 with hs | ⟨hp, hi⟩
  · obtain ⟨k, hk, hl⟩ := findFrom_infix ".git".toList r.2 0 hs.isInfix
    have hne : find r.2 ".git".toList 0 ≠ npos := by
      rw [find_zero, hk]
      have : ".git".toList.length = 4 := rfl
      unfold npos
      omega
    rw [if_neg (fun h => hne h.2), if_pos hs]
  · have h1 : find r.2 "http".toList 0 = 0 := by
      rw [find_zero]
      exact findFrom_hit _ _ _ hp
    have h2 : find r.2 ".git".toList 0 = npos := find_not_infix _ _ _ hi
    have h3 : ¬ ".git".toList <:+ r.2 := fun e => hi e.isInfix
    rw [if_pos ⟨h1, h2⟩, if_neg h3]

/-- The loop from the closing quote of a record's URL: it pushes one fork per
record still to come and ends. -/
theorem parseLoop_rest (rs : List (List Char × List Char)) :
    ∀ (pre : List Char) (acc : List Fork) (fuel : Nat),
      (∀ r ∈ rs, '"' ∉ r.1 ∧ '"' ∉ r.2) →
      (pre ++ '"' :: '\x7d' :: restText rs).length < 2 ^ 64 →
      rs.length < fuel →
      parseLoop (pre ++ '"' :: '\x7d' :: restText rs) fuel pre.length acc
        = some (acc ++ rs.map (fun r => ⟨r.1, forkUrl r.1 r.2⟩)) := by
  induction rs with
  | nil =>
    intro pre acc fuel _ _ hf
    obtain ⟨f, rfl⟩ : ∃ f, fuel = f + 1 := ⟨fuel - 1, by simp at hf; omega⟩
    have hstep : parseStep (pre ++ '"' :: '\x7d' :: restText []) pre.length = .done := by
      unfold parseStep
      have : find (pre ++ '"' :: '\x7d' :: restText []) "\"name\":".toList pre.length = npos := by
        rw [find_at_append, nameTok_eq]
        simp [restText, findFrom, List.isPrefixOf]
      rw [nameTok_eq] at this
      simp [this]
    simp [parseLoop, hstep]
  | cons r rs ih =>
    intro pre acc fuel hw hlen hf
    obtain ⟨f, rfl⟩ : ∃ f, fuel = f + 1 := ⟨fuel - 1, by simp at hf; omega⟩
    have hr : '"' ∉ r.1 ∧ '"' ∉ r.2 := hw r (by simp)
    have hD : pre ++ '"' :: '\x7d' :: restText (r :: rs)
        = (pre ++ ['"', '\x7d', ',', ' ']) ++ ('\x7b' :: '"' :: 'n' :: 'a' :: 'm' :: 'e' :: '"' :: ':'
          :: '"' :: (r.1 ++ ('"' :: ',' :: '"' :: 'u' :: 'r' :: 'l' :: '"' :: ':' :: '"' ::
            (r.2 ++ '"' :: ('\x7d' :: restText rs))))) := by
      have e : ", ".toList = [',', ' '] := rfl
      simp [restText, recordText_eq, e]
    have hfind : find (pre ++ '"' :: '\x7d' :: restText (r :: rs)) "\"name\":".toList pre.length
        = (pre ++ ['"', '\x7d', ',', ' ']).length + 1 := by
      rw [find_at_append, nameTok_eq]
      have e : ", ".toList = [',', ' '] := rfl
      simp [restText, recordText_eq, e, findFrom, List.isPrefixOf]
    rw [hD] at hlen hfind ⊢
    have hstep := parseStep_record (pre ++ ['"', '\x7d', ',', ' ']) r.1 r.2 ('\x7d' :: restText rs)
      pre.length hr.1 hr.2 hlen hfind
    have hD2 : (pre ++ ['"', '\x7d', ',', ' ']) ++ ('\x7b' :: '"' :: 'n' :: 'a' :: 'm' :: 'e' :: '"' :: ':'
          :: '"' :: (r.1 ++ ('"' :: ',' :: '"' :: 'u' :: 'r' :: 'l' :: '"' :: ':' :: '"' ::
            (r.2 ++ '"' :: ('\x7d' :: restText rs)))))
        = ((pre ++ ['"', '\x7d', ',', ' ']) ++ ('\x7b' :: '"' :: 'n' :: 'a' :: 'm' :: 'e' :: '"' :: ':'
          :: '"' :: (r.1 ++ ('"' :: ',' :: '"' :: 'u' :: 'r' :: 'l' :: '"' :: ':' :: '"' :: r.2))))
          ++ '"' :: '\x7d' :: restText rs := by
      simp
    have hlen2 : ((pre ++ ['"', '\x7d', ',', ' ']) ++ ('\x7b' :: '"' :: 'n' :: 'a' :: 'm' :: 'e' :: '"'
          :: ':' :: '"' :: (r.1 ++ ('"' :: ',' :: '"' :: 'u' :: 'r' :: 'l' :: '"' :: ':' :: '"' ::
            r.2)))).length
        = (pre ++ ['"', '\x7d', ',', ' ']).length + 18 + r.1.length + r.2.length := by
      simp only [List.length_append, List.length_cons, List.length_nil]
      omega
    have key := ih _ (acc ++ [⟨r.1, forkUrl r.1 r.2⟩]) f (fun x hx => hw x (by simp [hx]))
      (by rw [← hD2]; exact hlen) (by simp at hf; omega)
    rw [← hD2, hlen2] at key
    rw [parseLoop, hstep]
    simp only []
    rw [key]
    simp

/-- The loop over a whole document of quote-free records pushes, for each
record, its name with the URL forkUrl computes. -/
theorem parseForkList_records (recs : List (List Char × List Char)) (fuel : Nat)
    (hw : ∀ r ∈ recs, '"' ∉ r.1 ∧ '"' ∉ r.2)
    (hlen : (forkDocument recs).length < 2 ^ 64)
    (hf : recs.length < fuel) :
    parseForkList fuel (forkDocument recs) = some (defaultFork :: recs.map (fun r => ⟨r.1, forkUrl r.1 r.2⟩)) := by
  obtain ⟨f, rfl⟩ : ∃ f, fuel = f + 1 := ⟨fuel - 1, by omega⟩
  cases recs with
  | nil =>
    have hstep : parseStep (forkDocument []) 0 = .done := by decide
    simp [parseForkList, parseLoop, hstep]
  | cons r rs =>
    have hr : '"' ∉ r.1 ∧ '"' ∉ r.2 := hw r (by simp)
    have hD : forkDocument (r :: rs)
        = ['['] ++ ('\x7b' :: '"' :: 'n' :: 'a' :: 'm' :: 'e' :: '"' :: ':'
          :: '"' :: (r.1 ++ ('"' :: ',' :: '"' :: 'u' :: 'r' :: 'l' :: '"' :: ':' :: '"' ::
            (r.2 ++ '"' :: ('\x7d' :: restText rs))))) := by
      rw [forkDocument_cons, recordText_eq]
      rfl
    have hfind : find (forkDocument (r :: rs)) "\"name\":".toList 0 = ['['].length + 1 := by
      rw [hD, find_zero, nameTok_eq]
      simp [findFrom, List.isPrefixOf]
    rw [hD] at hlen hfind
    have hstep := parseStep_record ['['] r.1 r.2 ('\x7d' :: restText rs) 0 hr.1 hr.2 hlen hfind
    have hD2 : ['['] ++ ('\x7b' :: '"' :: 'n' :: 'a' :: 'm' :: 'e' :: '"' :: ':'
          :: '"' :: (r.1 ++ ('"' :: ',' :: '"' :: 'u' :: 'r' :: 'l' :: '"' :: ':' :: '"' ::
            (r.2 ++ '"' :: ('\x7d' :: restText rs)))))
        = (['['] ++ ('\x7b' :: '"' :: 'n' :: 'a' :: 'm' :: 'e' :: '"' :: ':'
          :: '"' :: (r.1 ++ ('"' :: ',' :: '"' :: 'u' :: 'r' :: 'l' :: '"' :: ':' :: '"' :: r.2))))
          ++ '"' :: '\x7d' :: restText rs := by
      simp
    have hlen2 : (['['] ++ ('\x7b' :: '"' :: 'n' :: 'a' :: 'm' :: 'e' :: '"'
          :: ':' :: '"' :: (r.1 ++ ('"' :: ',' :: '"' :: 'u' :: 'r' :: 'l' :: '"' :: ':' :: '"' ::
            r.2)))).length
        = ['['].length + 18 + r.1.length + r.2.length := by
      simp only [List.length_append, List.length_cons, List.length_nil]
      omega
    have key := parseLoop_rest rs _ ([defaultFork] ++ [⟨r.1, forkUrl r.1 r.2⟩]) f
      (fun x hx => hw x (by simp [hx])) (by rw [← hD2]; exact hlen) (by simp at hf; omega)
    rw [← hD2, hlen2] at key
    rw [parseForkList, hD, parseLoop, hstep]
    simp only []
    rw [key]
    simp

theorem record_length_le (recs : List (List Char × List Char)) :
    ∀ r ∈ recs, r.2.length ≤ (forkDocument recs).length := by
  induction recs with
  | nil => intro r hr; simp at hr
  | cons a as ih =>
    intro r hr
    rcases List.mem_cons.mp hr with rfl | h
    · rw [forkDocument_cons, recordText_eq]
      simp only [List.length_append, List.length_cons]
      omega
    · have h1 := ih r h
      have h2 : (forkDocument as).length ≤ (forkDocument (a :: as)).length := by
        cases as with
        | nil => simp at h
        | cons b bs =>
          rw [forkDocument_cons, forkDocument_cons]
          simp only [restText, List.length_append, List.length_cons]
          omega
      omega

/-- C1: for every list of records whose names and URLs hold no double quote
and whose URLs end in .git or start with http and hold no .git, parseForkList
on the document of the records ends (any fuel above the number of records is
enough) and returns the default fork followed by one fork per record, in order,
with the record's name and with its URL when that ends in .git, the github URL
of the name otherwise.  The document is a std::string, so its length is below
2^64. -/
theorem parseForkList_forkDocument (recs : List (List Char × List Char)) (fuel : Nat)
    (hw : ∀ r ∈ recs, WellFormedRecord r)
    (hlen : (forkDocument recs).length < 2 ^ 64)
    (hf : recs.length < fuel) :
    parseForkList fuel (forkDocument recs) = some (defaultFork :: recs.map expectedFork) := by
  rw [parseForkList_records recs fuel (fun r hr => ⟨(hw r hr).1, (hw r hr).2.1⟩) hlen hf]
  congr 2
  apply List.map_congr_left
  intro r hr
  have hu : r.2.length < 2 ^ 64 := Nat.lt_of_le_of_lt (record_length_le recs r hr) hlen
  have := forkUrl_wellFormed r (hw r hr) hu
  simp only [expectedFork] at this ⊢
  rw [this]

/-- C1, witness: the alice / bob document of the specification. -/
theorem parseForkList_forkDocument_witness :
    parseForkList 3 (forkDocument [("alice".toList, "https://example.com/alice.git".toList),
        ("bob".toList, "https://bob-installer.example".toList)])
      = some [defaultFork, ⟨"alice".toList, "https://example.com/alice.git".toList⟩,
          ⟨"bob".toList, "https://github.com/bob/openpilot.git".toList⟩] :=
  parseForkList_forkDocument [("alice".toList, "https://example.com/alice.git".toList),
      ("bob".toList, "https://bob-installer.example".toList)] 3
    (by decide) (by decide) (by decide)

/-- On a document without any occurrence of the name field token,
parseForkList ends at once and returns exactly the default fork; fetchForkList
returns exactly the default fork on an empty response and is parseForkList of
the response otherwise. -/
theorem parseForkList_no_name (json : List Char) (fuel : Nat)
    (h : ¬ "\"name\":".toList <:+: json) (hf : 0 < fuel) :
    parseForkList fuel json = some [defaultFork]
    ∧ fetchForkList fuel [] = some [defaultFork]
    ∧ (∀ response : List Char, response ≠ [] →
        fetchForkList fuel response = parseForkList fuel response) := by
  obtain ⟨f, rfl⟩ : ∃ f, fuel = f + 1 := ⟨fuel - 1, by omega⟩
  refine ⟨?_, rfl, ?_⟩
  · have hstep : parseStep json 0 = .done := by
      have h0 := find_not_infix _ _ 0 h
      rw [nameTok_eq] at h0
      unfold parseStep
      simp [h0]
    simp [parseForkList, parseLoop, hstep]
  · intro response hr
    cases response with
    | nil => exact absurd rfl hr
    | cons c cs => rfl

theorem findFrom_ge (needle s : List Char) :
    ∀ i, findFrom needle s i = npos ∨ i ≤ findFrom needle s i := by
  induction s with
  | nil => intro i; unfold findFrom; split <;> simp
  | cons c cs ih =>
    intro i
    unfold findFrom
    split
    · exact Or.inr (Nat.le_refl i)
    · rcases ih (i + 1) with h | h
      · exact Or.inl h
      · exact Or.inr (by omega)

theorem findFrom_zero_start (needle s : List Char) (h : findFrom needle s 0 = 0) :
    needle <+: s := by
  cases s with
  | nil =>
    by_cases hn : needle = []
    · simp [hn]
    · simp [findFrom, hn, npos] at h
  | cons c cs =>
    cases hp : needle.isPrefixOf (c :: cs) with
    | true => exact List.isPrefixOf_iff_prefix.mp hp
    | false =>
      simp only [findFrom, hp, Bool.false_eq_true, if_false] at h
      rcases findFrom_ge needle cs (0 + 1) with h1 | h1
      · rw [h] at h1; simp [npos] at h1
      · omega

/-- What forkUrl computes, in terms of the URL text: the github URL of the
name when the text starts with http and holds no .git, the text otherwise. -/
theorem forkUrl_rule (n u : List Char) (hlen : u.length < 2 ^ 64) :
    forkUrl n u = if "http".toList <+: u ∧ ¬ ".git".toList <:+: u
      then "https://github.com/".toList ++ n ++ "/openpilot.git".toList else u := by
  unfold forkUrl
  by_cases hc : "http".toList <+: u ∧ ¬ ".git".toList <:+: u
  · have h1 : find u "http".toList 0 = 0 := by
      rw [find_zero]; exact findFrom_hit _ _ _ hc.1
    have h2 : find u ".git".toList 0 = npos := find_not_infix _ _ _ hc.2
    rw [if_pos ⟨h1, h2⟩, if_pos hc]
  · rw [if_neg hc, if_neg]
    rintro ⟨h1, h2⟩
    apply hc
    refine ⟨findFrom_zero_start _ _ (by rw [← find_zero]; exact h1), ?_⟩
    intro hi
    obtain ⟨k, hk, hl⟩ := findFrom_infix ".git".toList u 0 hi
    rw [find_zero, hk] at h2
    have : ".git".toList.length = 4 := rfl
    unfold npos at h2
    omega

/-- C10, as amended: for every document of records without double quotes,
the fork parsed from a record with name n and URL text u has the github URL of
n exactly when u starts with http and holds no .git anywhere, and has u itself
in every other case. -/
theorem parseForkList_url_rule (recs : List (List Char × List Char)) (fuel : Nat)
    (hq : ∀ r ∈ recs, '"' ∉ r.1 ∧ '"' ∉ r.2)
    (hlen : (forkDocument recs).length < 2 ^ 64)
    (hf : recs.length < fuel) :
    parseForkList fuel (forkDocument recs)
      = some (defaultFork :: recs.map (fun r => ⟨r.1,
          if "http".toList <+: r.2 ∧ ¬ ".git".toList <:+: r.2
          then "https://github.com/".toList ++ r.1 ++ "/openpilot.git".toList else r.2⟩)) := by
  rw [parseForkList_records recs fuel hq hlen hf]
  congr 2
  apply List.map_congr_left
  intro r hr
  rw [forkUrl_rule r.1 r.2 (Nat.lt_of_le_of_lt (record_length_le recs r hr) hlen)]

/-- C10, witness: a URL that starts with http and holds .git in the middle is
kept, one without .git is replaced. -/
theorem parseForkList_url_rule_witness :
    parseForkList 3 (forkDocument [("alice".toList, "https://alice.github.io/fork".toList),
        ("bob".toList, "https://bob-installer.example".toList)])
      = some [defaultFork, ⟨"alice".toList, "https://alice.github.io/fork".toList⟩,
          ⟨"bob".toList, "https://github.com/bob/openpilot.git".toList⟩] :=
  parseForkList_url_rule [("alice".toList, "https://alice.github.io/fork".toList),
      ("bob".toList, "https://bob-installer.example".toList)] 3
    (by decide) (by decide) (by decide)

/-- C10, counterexample: the URL text https://alice.github.io/fork contains
http and does not end with .git, yet the parsed fork keeps it instead of the
github URL of alice; and the text git+http://example.com/x contains http and
does not end with .git, yet is kept as well. -/
theorem forkUrl_suffix_rule_counterexample :
    "http".toList <:+: "https://alice.github.io/fork".toList
    ∧ ¬ ".git".toList <:+ "https://alice.github.io/fork".toList
    ∧ parseForkList 2 "[\x7b\"name\":\"alice\",\"url\":\"https://alice.github.io/fork\"\x7d]".toList
        = some [defaultFork, ⟨"alice".toList, "https://alice.github.io/fork".toList⟩]
    ∧ "https://alice.github.io/fork".toList ≠ "https://github.com/alice/openpilot.git".toList
    ∧ "http".toList <:+: "git+http://example.com/x".toList
    ∧ ¬ ".git".toList <:+ "git+http://example.com/x".toList
    ∧ parseForkList 2 "[\x7b\"name\":\"carol\",\"url\":\"git+http://example.com/x\"\x7d]".toList
        = some [defaultFork, ⟨"carol".toList, "git+http://example.com/x".toList⟩]
    ∧ "git+http://example.com/x".toList ≠ "https://github.com/carol/openpilot.git".toList := by
  decide

theorem parseLoop_fixed (json : List Char) (p : Nat) (fork : Fork)
    (h : parseStep json p = .more fork p) :
    ∀ (fuel : Nat) (acc : List Fork), parseLoop json fuel p acc = none := by
  intro fuel
  induction fuel with
  | zero => intro acc; rfl
  | succ f ih => intro acc; rw [parseLoop, h]; exact ih _

theorem parseLoop_cycle (json : List Char) (p q : Nat) (f1 f2 : Fork)
    (h1 : parseStep json p = .more f1 q) (h2 : parseStep json q = .more f2 p) :
    ∀ (fuel : Nat) (acc : List Fork),
      parseLoop json fuel p acc = none ∧ parseLoop json fuel q acc = none := by
  intro fuel
  induction fuel with
  | zero => intro acc; exact ⟨rfl, rfl⟩
  | succ f ih =>
    intro acc
    constructor
    · rw [parseLoop, h1]; exact (ih _).2
    · rw [parseLoop, h2]; exact (ih _).1

/-- C2, the code at the failing inputs: on a fork list cut off right after the
name field token of its second record the loop never ends, since every pass
from the end of the first record pushes the fork named by the two opening
characters of the document with the first record's URL and leaves pos where it
was; on a list cut off right after the url field token the loop never ends
either, alternating between a fork bob whose URL is those two characters and
the first record again. -/
theorem parseForkList_truncated_never_ends :
    (∀ fuel, parseForkList fuel truncatedAfterName = none)
    ∧ parseStep truncatedAfterName 0
        = .more ⟨"alice".toList, "https://example.com/alice.git".toList⟩ 53
    ∧ parseStep truncatedAfterName 53
        = .more ⟨"[\x7b".toList, "https://example.com/alice.git".toList⟩ 53
    ∧ (∀ fuel, parseForkList fuel truncatedAfterUrl = none)
    ∧ parseStep truncatedAfterUrl 0
        = .more ⟨"alice".toList, "https://example.com/alice.git".toList⟩ 53
    ∧ parseStep truncatedAfterUrl 53 = .more ⟨"bob".toList, "[\x7b".toList⟩ 2
    ∧ parseStep truncatedAfterUrl 2
        = .more ⟨"alice".toList, "https://example.com/alice.git".toList⟩ 53 := by
  have a0 : parseStep truncatedAfterName 0
      = .more ⟨"alice".toList, "https://example.com/alice.git".toList⟩ 53 := by decide
  have a1 : parseStep truncatedAfterName 53
      = .more ⟨"[\x7b".toList, "https://example.com/alice.git".toList⟩ 53 := by decide
  have b0 : parseStep truncatedAfterUrl 0
      = .more ⟨"alice".toList, "https://example.com/alice.git".toList⟩ 53 := by decide
  have b1 : parseStep truncatedAfterUrl 53 = .more ⟨"bob".toList, "[\x7b".toList⟩ 2 := by decide
  have b2 : parseStep truncatedAfterUrl 2
      = .more ⟨"alice".toList, "https://example.com/alice.git".toList⟩ 53 := by decide
  refine ⟨?_, a0, a1, ?_, b0, b1, b2⟩
  · intro fuel
    cases fuel with
    | zero => rfl
    | succ f =>
      rw [parseForkList, parseLoop, a0]
      exact parseLoop_fixed _ _ _ a1 f _
  · intro fuel
    cases fuel with
    | zero => rfl
    | succ f =>
      rw [parseForkList, parseLoop, b0]
      exact (parseLoop_cycle _ _ _ _ _ b1 b2 f _).1

/-- C9, the code at the failing input: a response cut off right after the
name field token of its second record is not empty, so fetchForkList hands it
to parseForkList, whose loop never ends on it (the wrap of find(...) + 1 of
C2): fetchForkList returns no list at all, with or without the default; the
same holds for a response cut off right after the url field token.  On the
empty response and on "not json" it returns exactly the default fork. -/
theorem fetchForkList_truncated_never_returns :
    truncatedAfterName ≠ []
    ∧ (∀ fuel, fetchForkList fuel truncatedAfterName = none)
    ∧ (∀ fuel, fetchForkList fuel truncatedAfterUrl = none)
    ∧ fetchForkList 1 [] = some [defaultFork]
    ∧ fetchForkList 1 "not json".toList = some [defaultFork]
    ∧ parseForkList 1 "".toList = some [defaultFork]
    ∧ parseForkList 1 "not json".toList = some [defaultFork] := by
  have a0 : parseStep truncatedAfterName 0
      = .more ⟨"alice".toList, "https://example.com/alice.git".toList⟩ 53 := by decide
  have a1 : parseStep truncatedAfterName 53
      = .more ⟨"[\x7b".toList, "https://example.com/alice.git".toList⟩ 53 := by decide
  have b0 : parseStep truncatedAfterUrl 0
      = .more ⟨"alice".toList, "https://example.com/alice.git".toList⟩ 53 := by decide
  have b1 : parseStep truncatedAfterUrl 53 = .more ⟨"bob".toList, "[\x7b".toList⟩ 2 := by decide
  have b2 : parseStep truncatedAfterUrl 2
      = .more ⟨"alice".toList, "https://example.com/alice.git".toList⟩ 53 := by decide
  have e1 : truncatedAfterName.isEmpty = false := by decide
  have e2 : truncatedAfterUrl.isEmpty = false := by decide
  refine ⟨by decide, ?_, ?_, by decide, by decide, by decide, by decide⟩
  · intro fuel
    rw [fetchForkList, e1]
    cases fuel with
    | zero => rfl
    | succ f =>
      simp only [Bool.false_eq_true, if_false]
      rw [parseForkList, parseLoop, a0]
      exact parseLoop_fixed _ _ _ a1 f _
  · intro fuel
    rw [fetchForkList, e2]
    cases fuel with
    | zero => rfl
    | succ f =>
      simp only [Bool.false_eq_true, if_false]
      rw [parseForkList, parseLoop, b0]
      exact (parseLoop_cycle _ _ _ _ _ b1 b2 f _).1

/-! ## Facts about the progress parser -/

theorem find_infix_ne_npos (s needle : List Char) (h : needle <:+: s) (hlen : s.length < 2 ^ 64 - 1) :
    find s needle 0 ≠ npos := by
  obtain ⟨k, hk, hl⟩ := findFrom_infix needle s 0 h
  rw [find_zero, hk]
  unfold npos
  omega

theorem scanStages_skip (line text : List Char) (w base : Int) (rest : List (List Char × Int))
    (h : ¬ text <:+: line) :
    scanStages line ((text, w) :: rest) base = scanStages line rest (base + w) := by
  simp [scanStages, find_not_infix text line 0 h]

theorem percentTok_eq : "%".toList = ['%'] := rfl

theorem scanStages_hit (pre field post text : List Char) (w base percent : Int)
    (rest : List (List Char × Int))
    (hocc : text <:+: pre ++ field ++ '%' :: post)
    (hlen : (pre ++ field ++ '%' :: post).length < 2 ^ 64 - 1)
    (hpre : '%' ∉ pre) (hfield : '%' ∉ field) (hf3 : field.length = 3)
    (hstoi : stoi field = some percent) :
    scanStages (pre ++ field ++ '%' :: post) ((text, w) :: rest) base
      = .report (base + scaledPercent percent w) := by
  have h1 := find_infix_ne_npos _ _ hocc hlen
  have h2 : find (pre ++ field ++ '%' :: post) ['%'] 0 = pre.length + 3 := by
    rw [find_zero, List.append_assoc, findFrom_skip_char _ _ _ _ _ hpre,
      findFrom_skip_char _ _ _ _ _ hfield, findFrom_hit ['%'] ('%' :: post) _ ⟨post, rfl⟩]
    omega
  have h3 : substr (pre ++ field ++ '%' :: post) (pre.length + 3 - 3) 3 = field :=
    substr_at _ pre field ('%' :: post) _ _ (by simp) (by omega) hf3.symm
  have h4 : pre.length + 3 ≠ npos := by
    have : (pre ++ field ++ '%' :: post).length = pre.length + 3 + 1 + post.length := by
      simp [hf3]; omega
    unfold npos
    omega
  simp only [scanStages, percentTok_eq, h2, h3, hstoi, if_pos h1]
  simp [h4]

set_option maxRecDepth 1000000 in
theorem pad3_facts : ∀ p, p ≤ 100 →
    (pad3 p).length = 3 ∧ '%' ∉ pad3 p ∧ stoi (pad3 p) = some (p : Int) := by
  decide

set_option maxRecDepth 1000000 in
theorem scaledPercent_table : ∀ p, p ≤ 100 → ∀ w ∈ [91, 2, 7],
    scaledPercent (p : Nat) (w : Nat) = ((p * w / 100 : Nat) : Int) := by
  decide

/-- C3, as amended: for every stage i of the table, every p with 0 <= p <= 100
and every line (of at most 511 characters, the fgets buffer) in which stage i
is the first stage whose token occurs and in which the first percent sign
comes right after the decimal digits of p right-aligned with spaces to three
characters, the loop of executeGitCommand calls renderProgress with exactly
base_i + floor(p * w_i / 100), base_i being the sum of the weights before i
(0, 91, 93), and that number is drawn unchanged. -/
theorem processLine_padded (i : Nat) (text : List Char) (weight : Int) (p : Nat)
    (pre post cmd : List Char) (status : Int)
    (hst : stages[i]? = some (text, weight)) (hp : p ≤ 100)
    (hpre : '%' ∉ pre)
    (hlen : (pre ++ pad3 p ++ '%' :: post).length < 512)
    (hocc : text <:+: pre ++ pad3 p ++ '%' :: post)
    (hfirst : ∀ j t w, j < i → stages[j]? = some (t, w) → ¬ t <:+: pre ++ pad3 p ++ '%' :: post) :
    processLine (pre ++ pad3 p ++ '%' :: post) = .report (stageBase i + (p : Int) * weight / 100)
    ∧ (executeGitCommand cmd (some ([pre ++ pad3 p ++ '%' :: post], status))).trace
        = [.popen cmd, .render (stageBase i + (p : Int) * weight / 100)]
    ∧ stageBase 0 = 0 ∧ stageBase 1 = 91 ∧ stageBase 2 = 93 := by
  obtain ⟨hl3, hno, hstoi⟩ := pad3_facts p hp
  have hlen2 : (pre ++ pad3 p ++ '%' :: post).length < 2 ^ 64 - 1 := by omega
  have key : processLine (pre ++ pad3 p ++ '%' :: post)
      = .report (stageBase i + (p : Int) * weight / 100)
      ∧ 0 ≤ stageBase i + (p : Int) * weight / 100
      ∧ stageBase i + (p : Int) * weight / 100 ≤ 100 := by
    match i, hst, hfirst with
    | 0, hst, _ =>
      obtain ⟨rfl, rfl⟩ := Prod.mk.inj (Option.some.inj
        (hst : some (("Receiving objects: ".toList, (91 : Int))) = some (text, weight)))
      have hs := scaledPercent_table p hp 91 (by simp)
      refine ⟨?_, ?_, ?_⟩
      · rw [processLine, stages, scanStages_hit pre (pad3 p) post _ 91 0 p _ hocc hlen2 hpre hno
          hl3 hstoi]
        simp only [Nat.cast_ofNat] at hs
        rw [hs]
        simp [stageBase, stages]
      · simp [stageBase, stages]; omega
      · simp [stageBase, stages]; omega
    | 1, hst, hfirst =>
      obtain ⟨rfl, rfl⟩ := Prod.mk.inj (Option.some.inj
        (hst : some (("Resolving deltas: ".toList, (2 : Int))) = some (text, weight)))
      have h0 := hfirst 0 _ _ (by omega) rfl
      have hs := scaledPercent_table p hp 2 (by simp)
      refine ⟨?_, ?_, ?_⟩
      · rw [processLine, stages, scanStages_skip _ _ _ _ _ h0,
          scanStages_hit pre (pad3 p) post _ 2 _ p _ hocc hlen2 hpre hno hl3 hstoi]
        simp only [Nat.cast_ofNat] at hs
        rw [hs]
        simp [stageBase, stages]
      · simp [stageBase, stages]; omega
      · simp [stageBase, stages]; omega
    | 2, hst, hfirst =>
      obtain ⟨rfl, rfl⟩ := Prod.mk.inj (Option.some.inj
        (hst : some (("Updating files: ".toList, (7 : Int))) = some (text, weight)))
      have h0 := hfirst 0 _ _ (by omega) rfl
      have h1 := hfirst 1 _ _ (by omega) rfl
      have hs := scaledPercent_table p hp 7 (by simp)
      refine ⟨?_, ?_, ?_⟩
      · rw [processLine, stages, scanStages_skip _ _ _ _ _ h0, scanStages_skip _ _ _ _ _ h1,
          scanStages_hit pre (pad3 p) post _ 7 _ p _ hocc hlen2 hpre hno hl3 hstoi]
        simp only [Nat.cast_ofNat] at hs
        rw [hs]
        simp [stageBase, stages]
      · simp [stageBase, stages]; omega
      · simp [stageBase, stages]; omega
    | n + 3, hst, _ => simp [stages] at hst
  obtain ⟨k1, k2, k3⟩ := key
  refine ⟨k1, ?_, by decide, by decide, by decide⟩
  simp only [executeGitCommand, readLines, k1, renderProgress]
  rw [if_neg (by omega), if_neg (by omega)]
/-- C3, witness: the line git prints at 50 percent of the second stage. -/
theorem processLine_padded_witness :
    processLine ("Resolving deltas: ".toList ++ pad3 50 ++ '%' :: " (1/2)".toList)
      = .report (stageBase 1 + ((50 : Nat) : Int) * 2 / 100)
    ∧ stageBase 1 + ((50 : Nat) : Int) * 2 / 100 = 92 :=
  ⟨(processLine_padded 1 "Resolving deltas: ".toList 2 50 "Resolving deltas: ".toList
      " (1/2)".toList [] 0 rfl (by decide) (by decide) (by decide) (by decide)
      (by
        intro j t w hj hs
        obtain rfl : j = 0 := by omega
        obtain ⟨rfl, rfl⟩ := Prod.mk.inj (Option.some.inj
          (hs : some (("Receiving objects: ".toList, (91 : Int))) = some (t, w)))
        decide)).1,
    by decide⟩

/-- C3, counterexample: in the line made of the first stage token directly
followed by the digit 5 and the percent sign, that stage is the first whose
token occurs and the digits of 5 come right before the percent sign, yet the
three characters before the percent sign are a colon, a space and the digit,
std::stoi throws on them, and nothing is reported.  In the line with "1 5"
before the percent sign the digits of 5 again come right before it, and the
value reported is that of the field read as 1, namely 0 and not 4. -/
theorem processLine_unpadded_counterexample :
    stages[0]? = some ("Receiving objects: ".toList, 91)
    ∧ "Receiving objects: ".toList ++ Nat.toDigits 10 5 ++ ['%'] = "Receiving objects: 5%".toList
    ∧ "Receiving objects: ".toList <:+: "Receiving objects: 5%".toList
    ∧ stoi ": 5".toList = none
    ∧ processLine "Receiving objects: 5%".toList = .throws
    ∧ executeGitCommand [] (some (["Receiving objects: 5%".toList], 0)) = ⟨[.popen []], none⟩
    ∧ processLine "Receiving objects: 1 5%".toList = .report 0
    ∧ stageBase 0 + (5 : Int) * 91 / 100 = 4 := by
  decide

/-- C5, the code at the failing input: after a line that reports 45, the line
"Receiving objects: abc%" makes std::stoi throw; the exception leaves
executeGitCommand, so the run ends there without a return value and the
following line, which would report 54, is never processed.  A field that only
starts with a digit, as in "Receiving objects: 5ab%", is read as that digit
and a value is drawn.  The two guarded shapes, no percent sign and a percent
sign before index 3, draw nothing and let the loop go on. -/
theorem executeGitCommand_malformed_percent :
    executeGitCommand [] (some (["Receiving objects:  50%".toList,
        "Receiving objects: abc%".toList, "Receiving objects:  60%".toList], 0))
      = ⟨[.popen [], .render 45], none⟩
    ∧ processLine "Receiving objects: abc%".toList = .throws
    ∧ processLine "Receiving objects:  60%".toList = .report 54
    ∧ processLine "Receiving objects: 5ab%".toList = .report 4
    ∧ processLine "Receiving objects: done".toList = .silent
    ∧ processLine "5% Receiving objects: ".toList = .silent := by
  decide

theorem runOps_trace_prefix (ok : Op → Bool) (ops : List Op) :
    (runOps ok ops).trace <+: ops := by
  induction ops with
  | nil => simp [runOps]
  | cons op rest ih =>
    unfold runOps
    split
    · exact ⟨rest, rfl⟩
    · exact (List.prefix_cons_inj op).mpr ih

theorem runOps_all_ok (ops : List Op) : runOps (fun _ => true) ops = ⟨ops, some ()⟩ := by
  induction ops with
  | nil => rfl
  | cons op rest ih => simp [runOps, ih]

theorem keyUp_eq (n h : Nat) (hn : n < 2 ^ 31) (hh : h < n) :
    keyUp (h : Int) n = (((h + n - 1) % n : Nat) : Int) := by
  have a1 : toInt ((h : Int) - 1) = (h : Int) - 1 := by unfold toInt; omega
  have a2 : intToSizeT ((h : Int) - 1) = if h = 0 then 2 ^ 64 - 1 else h - 1 := by
    unfold intToSizeT
    split <;> omega
  have a3 : sizeT ((if h = 0 then 2 ^ 64 - 1 else h - 1) + n) = h + n - 1 := by
    unfold sizeT
    split <;> omega
  have a4 : (h + n - 1) % n < n := Nat.mod_lt _ (by omega)
  unfold keyUp
  rw [a1, a2, a3]
  unfold toInt
  omega

theorem keyDown_eq (n h : Nat) (hn : n < 2 ^ 31) (hh : h < n) :
    keyDown (h : Int) n = (((h + 1) % n : Nat) : Int) := by
  have a1 : toInt ((h : Int) + 1) = (h : Int) + 1 := by unfold toInt; omega
  have a2 : intToSizeT ((h : Int) + 1) = h + 1 := by
    unfold intToSizeT
    omega
  have a4 : (h + 1) % n < n := Nat.mod_lt _ (by omega)
  unfold keyDown
  rw [a1, a2]
  unfold toInt
  omega

theorem up_spec (n h : Nat) (hh : h < n) :
    ((h : Int) - 1 + n) % n = (((h + n - 1) % n : Nat) : Int) := by
  have : ((h : Int) - 1 + n) = ((h + n - 1 : Nat) : Int) := by omega
  rw [this]
  norm_cast

theorem down_spec (n h : Nat) :
    ((h : Int) + 1) % n = (((h + 1) % n : Nat) : Int) := by
  norm_cast

theorem selectionLoop_refines (n : Nat) (hn2 : 2 ≤ n) (hn : n < 2 ^ 31) (frames : List Frame)
    (hk : ∀ f ∈ frames, atMostOneKey f = true) :
    ∀ h : Nat, h < n →
      (selectionLoop n (h : Int) frames).map (fun r => (r.1, r.2.map frameEvent))
          = selectionController n (h : Int) (frames.map frameEvent)
      ∧ ∀ r, selectionLoop n (h : Int) frames = some r → 0 ≤ r.1 ∧ r.1 < n := by
  induction frames with
  | nil => intro h _; simp [selectionLoop, selectionController]
  | cons f rest ih =>
    intro h hh
    have ih' := ih (fun x hx => hk x (by simp [hx]))
    have hf := hk f (by simp)
    have hup := keyUp_eq n h hn hh
    have hdown := keyDown_eq n h hn hh
    have hups := up_spec n h hh
    have hdowns := down_spec n h
    have hu := ih' ((h + n - 1) % n) (Nat.mod_lt _ (by omega))
    have hd := ih' ((h + 1) % n) (Nat.mod_lt _ (by omega))
    have hs := ih' h hh
    obtain ⟨c, u, d, e, x⟩ := f
    cases c <;> cases u <;> cases d <;> cases e <;> cases x <;>
      simp [atMostOneKey] at hf <;>
      simp only [selectionLoop, frameEvent, selectionController, List.map_cons, if_true, if_false,
        Bool.false_eq_true, hup, hdown, hups, hdowns, Option.map_some'] <;>
      first
        | exact hu
        | exact hd
        | exact hs
        | (refine ⟨trivial, ?_⟩; intro r hr; cases hr; constructor <;> omega)

/-- C6, as amended: for a list of n variants with n below 2^31 (so that every
index fits the int selected) and frames with at most one of the four keys
pressed, showForkSelection agrees with the SelectionController of the
specification: for n <= 1 it returns 0 without reading a frame; for n >= 2 a
move-down maps the index h to (h + 1) mod n and a move-up to (h - 1 + n) mod n
in the code's int / size_t arithmetic, so the index stays within 0 <= h < n,
confirm returns the index unchanged and cancel returns 0. -/
theorem showForkSelection_refines (forks : List Fork) (frames : List Frame)
    (hn : forks.length < 2 ^ 31) (hk : ∀ f ∈ frames, atMostOneKey f = true) :
    (showForkSelection forks frames).map (fun r => (r.1, r.2.map frameEvent))
        = selectSpec forks.length (frames.map frameEvent)
    ∧ (forks.length ≤ 1 → showForkSelection forks frames = some (0, frames))
    ∧ (∀ h : Nat, h < forks.length →
        keyDown h forks.length = ((h : Int) + 1) % forks.length
        ∧ keyUp h forks.length = ((h : Int) - 1 + forks.length) % forks.length
        ∧ 0 ≤ keyDown h forks.length ∧ keyDown h forks.length < forks.length
        ∧ 0 ≤ keyUp h forks.length ∧ keyUp h forks.length < forks.length)
    ∧ (2 ≤ forks.length → ∀ r, showForkSelection forks frames = some r →
        0 ≤ r.1 ∧ r.1 < forks.length)
    ∧ (∀ (h : Int) (rest : List Frame),
        selectionLoop forks.length h (⟨false, false, false, true, false⟩ :: rest) = some (h, rest)
        ∧ selectionLoop forks.length h (⟨false, false, false, false, true⟩ :: rest)
            = some (0, rest)) := by
  refine ⟨?_, ?_, ?_, ?_, ?_⟩
  · unfold showForkSelection selectSpec
    by_cases h1 : forks.length ≤ 1
    · simp [h1]
    · rw [if_neg h1, if_neg h1]
      exact (selectionLoop_refines forks.length (by omega) hn frames hk 0 (by omega)).1
  · intro h1
    simp [showForkSelection, h1]
  · intro h hh
    have hd := keyDown_eq forks.length h hn hh
    have hu := keyUp_eq forks.length h hn hh
    have m1 : (h + 1) % forks.length < forks.length := Nat.mod_lt _ (by omega)
    have m2 : (h + forks.length - 1) % forks.length < forks.length := Nat.mod_lt _ (by omega)
    rw [down_spec, up_spec _ _ hh, hd, hu]
    refine ⟨rfl, rfl, ?_, ?_, ?_, ?_⟩ <;> omega
  · intro h2 r hr
    unfold showForkSelection at hr
    rw [if_neg (by omega)] at hr
    exact (selectionLoop_refines forks.length h2 hn frames hk 0 (by omega)).2 r hr
  · intro h rest
    simp [selectionLoop]

/-- C6, witness: three variants; down, down, down, up, confirm. -/
theorem showForkSelection_refines_witness :
    showForkSelection [defaultFork, defaultFork, defaultFork]
        [⟨false, false, true, false, false⟩, ⟨false, false, true, false, false⟩,
         ⟨false, false, true, false, false⟩, ⟨false, true, false, false, false⟩,
         ⟨false, false, false, true, false⟩] = some (2, [])
    ∧ keyDown 0 3 = 1 ∧ keyDown 1 3 = 2 ∧ keyDown 2 3 = 0 ∧ keyUp 0 3 = 2
    ∧ (showForkSelection [defaultFork, defaultFork, defaultFork]
        [⟨false, false, true, false, false⟩, ⟨false, false, true, false, false⟩,
         ⟨false, false, true, false, false⟩, ⟨false, true, false, false, false⟩,
         ⟨false, false, false, true, false⟩]).map (fun r => (r.1, r.2.map frameEvent))
        = selectSpec 3 [some .moveDown, some .moveDown, some .moveDown, some .moveUp,
            some .confirm] :=
  ⟨by decide, by decide, by decide, by decide, by decide,
    (showForkSelection_refines [defaultFork, defaultFork, defaultFork]
        [⟨false, false, true, false, false⟩, ⟨false, false, true, false, false⟩,
         ⟨false, false, true, false, false⟩, ⟨false, true, false, false, false⟩,
         ⟨false, false, false, true, false⟩] (by decide) (by decide)).1⟩

/-- C6, counterexample: with 2^31 + 1 variants a move-up from index 0 gives
(0 - 1 + n) mod n = 2^31 in size_t, and the conversion back to int makes the
index -2^31, which confirm then returns: the index has left 0 <= h < n. -/
theorem showForkSelection_narrowing_counterexample :
    ((0 : Int) - 1 + 2147483649) % 2147483649 = 2147483648
    ∧ keyUp 0 2147483649 = -2147483648
    ∧ showForkSelection (List.replicate 2147483649 defaultFork)
        [⟨false, true, false, false, false⟩, ⟨false, false, false, true, false⟩]
        = some (-2147483648, []) := by
  refine ⟨by decide, by decide, ?_⟩
  unfold showForkSelection
  rw [List.length_replicate]
  decide

/-! ## Facts about the install sequence -/

theorem applyOps_append (ok : Op → Bool) (fs : FileSys) (a b : List Op) :
    applyOps ok fs (a ++ b) = applyOps ok (applyOps ok fs a) b := by
  simp [applyOps, List.foldl_append]

theorem applyOps_keeps (ok : Op → Bool) (p : List Char) (ops : List Op)
    (h : ∀ op ∈ ops, ∀ fs : FileSys, applyOp ok fs op p = fs p) :
    ∀ fs : FileSys, applyOps ok fs ops p = fs p := by
  induction ops with
  | nil => intro fs; rfl
  | cons op rest ih =>
    intro fs
    have h1 := ih (fun x hx => h x (by simp [hx])) (applyOp ok fs op)
    have h2 := h op (by simp) fs
    simp only [applyOps, List.foldl_cons] at h1 ⊢
    rw [h1, h2]

/-- The operations of cloneFinished before the rename of the hand-off script. -/
theorem cloneFinishedOps_split (internal : Bool) (b s : List Char) :
    cloneFinishedOps internal b s
      = (cloneFinishedOps internal b s).take ((cloneFinishedOps internal b s).length - 2)
        ++ [.system ("mv /data/continue.sh.new ".toList ++ CONTINUE_PATH), .finish] := by
  cases internal <;> simp [cloneFinishedOps, internalOps]

theorem before_rename_keeps (ok : Op → Bool) (internal : Bool) (b s : List Char) :
    ∀ op ∈ (cloneFinishedOps internal b s).take ((cloneFinishedOps internal b s).length - 2),
      ∀ fs : FileSys, applyOp ok fs op CONTINUE_PATH = fs CONTINUE_PATH := by
  cases internal
  · intro op hop fs
    simp only [cloneFinishedOps, internalOps, Bool.false_eq_true, if_false, List.append_nil,
      List.cons_append, List.nil_append, List.length_cons, List.length_nil, List.take,
      List.mem_cons, List.not_mem_nil, or_false] at hop
    rcases hop with rfl | rfl | rfl | rfl | rfl | rfl | rfl | rfl | rfl | rfl | rfl | rfl <;> rfl
  · intro op hop fs
    simp only [cloneFinishedOps, internalOps, if_true, List.append_nil,
      List.cons_append, List.nil_append, List.length_cons, List.length_nil, List.take,
      List.mem_cons, List.not_mem_nil, or_false] at hop
    rcases hop with rfl | rfl | rfl | rfl | rfl | rfl | rfl | rfl | rfl | rfl | rfl | rfl | rfl
      | rfl | rfl | rfl | rfl <;> rfl

/-- The four staging operations leave an executable file under the staging
name, whatever was there before: the complete script when the flush of fclose
succeeds, an empty file when it fails. -/
theorem staging_result (ok : Op → Bool) (s : List Char) (fs : FileSys) :
    applyOps ok fs [.fopen "/data/continue.sh.new".toList,
        .fwrite "/data/continue.sh.new".toList s,
        .fclose "/data/continue.sh.new".toList,
        .system "chmod +x /data/continue.sh.new".toList] "/data/continue.sh.new".toList
      = some (.file (if ok (.fclose "/data/continue.sh.new".toList) then s else []) true []) := by
  have e : afterStart "chmod +x ".toList "chmod +x /data/continue.sh.new".toList
      = some "/data/continue.sh.new".toList := by decide
  have e1 : afterStart "rm -rf ".toList "chmod +x /data/continue.sh.new".toList = none := by
    decide
  have e2 : afterStart "rm -f ".toList "chmod +x /data/continue.sh.new".toList = none := by
    decide
  have e3 : afterStart "mv ".toList "chmod +x /data/continue.sh.new".toList = none := by
    decide
  simp only [applyOps, List.foldl_cons, List.foldl_nil, applyOp, systemEffect, e, e1, e2, e3,
    if_true]
  cases fs "/data/continue.sh.new".toList with
  | none => cases ok (.fclose "/data/continue.sh.new".toList) <;> simp
  | some node => cases node <;> cases ok (.fclose "/data/continue.sh.new".toList) <;> simp

theorem rename_result (ok : Op → Bool) (fs : FileSys) :
    applyOp ok fs (.system ("mv /data/continue.sh.new ".toList ++ CONTINUE_PATH)) CONTINUE_PATH
      = fs "/data/continue.sh.new".toList := by
  rfl

theorem cloneFinishedOps_shape (ok : Op → Bool) (internal : Bool) (b s : List Char) :
    ∃ pre : List Op,
      cloneFinishedOps internal b s
        = pre ++ [.system ("mv /data/continue.sh.new ".toList ++ CONTINUE_PATH), .finish]
      ∧ (∀ op ∈ pre, ∀ fs : FileSys, applyOp ok fs op CONTINUE_PATH = fs CONTINUE_PATH)
      ∧ (∀ fs : FileSys, applyOps ok fs pre "/data/continue.sh.new".toList
          = some (.file (if ok (.fclose "/data/continue.sh.new".toList) then s else [])
              true [])) := by
  refine ⟨(cloneFinishedOps internal b s).take ((cloneFinishedOps internal b s).length - 2),
    cloneFinishedOps_split internal b s, before_rename_keeps ok internal b s, ?_⟩
  intro fs
  have hsplit : (cloneFinishedOps internal b s).take ((cloneFinishedOps internal b s).length - 2)
      = (cloneFinishedOps internal b s).take ((cloneFinishedOps internal b s).length - 6)
        ++ [.fopen "/data/continue.sh.new".toList,
            .fwrite "/data/continue.sh.new".toList s,
            .fclose "/data/continue.sh.new".toList,
            .system "chmod +x /data/continue.sh.new".toList] := by
    cases internal <;> simp [cloneFinishedOps, internalOps]
  rw [hsplit, applyOps_append]
  exact staging_result ok s _

theorem prefix_keeps_or_new (ok : Op → Bool) (pre : List Op) (mv : Op) (node : Node)
    (hkeep : ∀ op ∈ pre, ∀ fs : FileSys, applyOp ok fs op CONTINUE_PATH = fs CONTINUE_PATH)
    (hnew : ∀ fs : FileSys, applyOps ok fs pre "/data/continue.sh.new".toList = some node)
    (hmove : ∀ fs : FileSys, applyOp ok fs mv CONTINUE_PATH = fs "/data/continue.sh.new".toList)
    (fs : FileSys) (k : Nat) :
    (applyOps ok fs ((pre ++ [mv, Op.finish]).take k) CONTINUE_PATH = fs CONTINUE_PATH
      ∨ applyOps ok fs ((pre ++ [mv, Op.finish]).take k) CONTINUE_PATH = some node)
    ∧ applyOps ok fs (pre ++ [mv, Op.finish]) CONTINUE_PATH = some node := by
  have hmv : applyOps ok fs (pre ++ [mv]) CONTINUE_PATH = some node := by
    rw [applyOps_append]
    have e : applyOps ok (applyOps ok fs pre) [mv] = applyOp ok (applyOps ok fs pre) mv := rfl
    rw [e, hmove, hnew]
  have hall : applyOps ok fs (pre ++ [mv, Op.finish]) CONTINUE_PATH = some node := by
    have : pre ++ [mv, Op.finish] = (pre ++ [mv]) ++ [Op.finish] := by simp
    rw [this, applyOps_append]
    exact hmv
  refine ⟨?_, hall⟩
  by_cases h1 : k ≤ pre.length
  · left
    rw [List.take_append_of_le_length h1]
    exact applyOps_keeps ok _ _ (fun op hop => hkeep op (List.mem_of_mem_take hop)) fs
  · right
    by_cases h2 : k = pre.length + 1
    · have : (pre ++ [mv, Op.finish]).take k = pre ++ [mv] := by
        rw [h2, List.take_append_eq_append_take]
        simp
      rw [this, hmv]
    · rw [List.take_of_length_le (by simp; omega)]
      exact hall

/-- The order of the operations of cloneFinished: the removal of the cache
marker stands right before the removal of the old install directory and the
move of the temporary directory into the install path, and none of the three
occurs anywhere else; the hand-off script is written only under the staging
name, made executable and then renamed, the rename being followed by the
finishing screen alone and no earlier operation changing /data/continue.sh.
After every prefix of the operations /data/continue.sh is as it was before or
is what the staging file held after fclose: the complete executable script
when the flush of fclose succeeded, an empty executable file when it failed. -/
theorem cloneFinishedOps_order (internal : Bool) (BRANCH_STR str_continue : List Char) :
    cloneFinished (fun _ => true) internal BRANCH_STR str_continue 0
      = ⟨cloneFinishedOps internal BRANCH_STR str_continue, some ()⟩
    ∧ (∀ ok : Op → Bool, (cloneFinished ok internal BRANCH_STR str_continue 0).trace
        <+: cloneFinishedOps internal BRANCH_STR str_continue)
    ∧ (cloneFinishedOps internal BRANCH_STR str_continue)[5]?
        = some (.system ("rm -f ".toList ++ VALID_CACHE_PATH))
    ∧ (cloneFinishedOps internal BRANCH_STR str_continue)[6]?
        = some (.system ("rm -rf ".toList ++ INSTALL_PATH))
    ∧ (cloneFinishedOps internal BRANCH_STR str_continue)[7]?
        = some (.system ("mv ".toList ++ TMP_INSTALL_PATH ++ " ".toList ++ INSTALL_PATH))
    ∧ (∀ op ∈ (cloneFinishedOps internal BRANCH_STR str_continue).take 5
          ++ (cloneFinishedOps internal BRANCH_STR str_continue).drop 8,
        op ≠ .system ("rm -f ".toList ++ VALID_CACHE_PATH)
        ∧ op ≠ .system ("rm -rf ".toList ++ INSTALL_PATH)
        ∧ op ≠ .system ("mv ".toList ++ TMP_INSTALL_PATH ++ " ".toList ++ INSTALL_PATH))
    ∧ [.fopen "/data/continue.sh.new".toList,
        .fwrite "/data/continue.sh.new".toList str_continue,
        .fclose "/data/continue.sh.new".toList,
        .system "chmod +x /data/continue.sh.new".toList,
        .system ("mv /data/continue.sh.new ".toList ++ CONTINUE_PATH),
        .finish] <:+ cloneFinishedOps internal BRANCH_STR str_continue
    ∧ (∀ path data, Op.fwrite path data ∈ cloneFinishedOps internal BRANCH_STR str_continue →
        path = "/data/continue.sh.new".toList ∧ data = str_continue)
    ∧ (∀ (ok : Op → Bool),
        ∀ op ∈ (cloneFinishedOps internal BRANCH_STR str_continue).take
          ((cloneFinishedOps internal BRANCH_STR str_continue).length - 2),
        ∀ fs : FileSys, applyOp ok fs op CONTINUE_PATH = fs CONTINUE_PATH)
    ∧ (∀ (ok : Op → Bool) (fs : FileSys) (k : Nat),
        applyOps ok fs ((cloneFinishedOps internal BRANCH_STR str_continue).take k) CONTINUE_PATH
          = fs CONTINUE_PATH
        ∨ applyOps ok fs ((cloneFinishedOps internal BRANCH_STR str_continue).take k)
            CONTINUE_PATH
          = some (.file (if ok (.fclose "/data/continue.sh.new".toList) then str_continue
              else []) true []))
    ∧ (∀ (ok : Op → Bool) (fs : FileSys),
        applyOps ok fs (cloneFinishedOps internal BRANCH_STR str_continue) CONTINUE_PATH
          = some (.file (if ok (.fclose "/data/continue.sh.new".toList) then str_continue
              else []) true [])) := by
  refine ⟨?_, ?_, ?_, ?_, ?_, ?_, ?_, ?_, ?_, ?_, ?_⟩
  · rw [cloneFinished, if_pos rfl, runOps_all_ok]
  · intro ok
    rw [cloneFinished, if_pos rfl]
    exact runOps_trace_prefix ok _
  · cases internal <;> rfl
  · cases internal <;> rfl
  · cases internal <;> rfl
  · cases internal <;>
      simp [cloneFinishedOps, internalOps, renderProgress, VALID_CACHE_PATH, INSTALL_PATH,
        TMP_INSTALL_PATH, CONTINUE_PATH, GIT_SSH_URL]
  · cases internal
    · exact ⟨_, rfl⟩
    · exact ⟨_, rfl⟩
  · intro path data h
    cases internal <;>
      simp [cloneFinishedOps, internalOps, renderProgress] at h <;> exact h
  · intro ok
    exact before_rename_keeps ok internal BRANCH_STR str_continue
  · intro ok fs k
    obtain ⟨pre, hops, hkeep, hnew⟩ := cloneFinishedOps_shape ok internal BRANCH_STR str_continue
    rw [hops]
    exact (prefix_keeps_or_new ok pre _ _ hkeep hnew (rename_result ok) fs k).1
  · intro ok fs
    obtain ⟨pre, hops, hkeep, hnew⟩ := cloneFinishedOps_shape ok internal BRANCH_STR str_continue
    rw [hops]
    exact (prefix_keeps_or_new ok pre _ _ hkeep hnew (rename_result ok) fs 0).2

/-- C8, the code at the failing input: cloneFinished asserts the results of
fopen and fwrite and drops the result of fclose.  In a run with exit status 0
in which every command succeeds and only the flush of the stream's buffer at
fclose fails, no assert fires and all operations are performed; the staging
file is still empty when it is made executable and renamed, so on a device
without a /data/continue.sh the run ends with an empty executable
/data/continue.sh: neither the old state nor the complete script.  With a
successful flush the same run ends with the complete executable script. -/
theorem cloneFinished_failed_flush :
    Op.asserted (.fopen "/data/continue.sh.new".toList) = true
    ∧ Op.asserted (.fwrite "/data/continue.sh.new".toList "#!/usr/bin/bash\n".toList) = true
    ∧ Op.asserted (.fclose "/data/continue.sh.new".toList) = false
    ∧ cloneFinished flushFails false "master".toList "#!/usr/bin/bash\n".toList 0
        = ⟨cloneFinishedOps false "master".toList "#!/usr/bin/bash\n".toList, some ()⟩
    ∧ (fun _ => none : FileSys) CONTINUE_PATH = none
    ∧ applyOps flushFails (fun _ => none)
        (cloneFinishedOps false "master".toList "#!/usr/bin/bash\n".toList) CONTINUE_PATH
        = some (.file [] true [])
    ∧ applyOps (fun _ => true) (fun _ => none)
        (cloneFinishedOps false "master".toList "#!/usr/bin/bash\n".toList) CONTINUE_PATH
        = some (.file "#!/usr/bin/bash\n".toList true []) := by
  decide

end Installer
